import Mathlib

/-!
Shallow embedding of `src/ipython_config.py`, an IPython startup
configuration file.  The file obtains a host-provided configuration
object (`c = get_config()`) and performs nine attribute assignments on
its nested sections.  We model the configuration object as an
association list from dotted attribute paths (e.g.
"InteractiveShell.editor") to values; Python attribute assignment
becomes `setKey` (overwrite when the key is present, append otherwise)
and attribute lookup becomes `getKey`.  The nine module-level
assignments of the source, in source order, are the list `assignments`,
and running the whole file is `load_config`.  A small statement-level
embedding (`script` / `runScript`) runs the same assignments inside an
error monad, to express that execution has no failure path.
-/

namespace IPythonConfig

/-- A value assigned by the configuration file: Python booleans,
strings, and lists of strings are the only literal shapes occurring in
`src/ipython_config.py`. -/
inductive Value where
  | bool (b : Bool)
  | str (s : String)
  | strList (l : List String)
deriving DecidableEq, Repr

/-- The host-provided configuration object, modelled as an association
list from dotted attribute paths to values. -/
abbrev Config := List (String × Value)

/-- Python attribute assignment `c.Section.field = v`: overwrite the
binding when the key is present, otherwise append a new binding. -/
def setKey (c : Config) (k : String) (v : Value) : Config :=
  if c.any (fun p => p.1 == k) then
    c.map (fun p => if p.1 == k then (k, v) else p)
  else
    c ++ [(k, v)]

/-- Attribute lookup on the configuration object. -/
def getKey (c : Config) (k : String) : Option Value :=
  (c.find? (fun p => p.1 == k)).map Prod.snd

/-- The nine module-level assignments of `src/ipython_config.py`, in
source order, as (dotted attribute path, literal value) pairs. -/
def assignments : List (String × Value) :=
  [("InteractiveShellApp.extensions", Value.strList ["autoreload", "line_profiler"]),
   ("InteractiveShell.autoindent", Value.bool true),
   ("InteractiveShell.colors", Value.str "Linux"),
   ("InteractiveShell.confirm_exit", Value.bool false),
   ("InteractiveShell.deep_reload", Value.bool true),
   ("InteractiveShell.editor", Value.str "vim"),
   ("InteractiveShell.xmode", Value.str "Context"),
   ("PromptManager.justify", Value.bool true),
   ("PrefilterManager.multi_line_specials", Value.bool true)]

/-- Perform a list of assignments in order on a configuration object. -/
def applyAll (c : Config) (l : List (String × Value)) : Config :=
  l.foldl (fun c kv => setKey c kv.1 kv.2) c

/-- Running `src/ipython_config.py` on the host-provided configuration
object: the nine assignments, in source order. -/
def load_config (c : Config) : Config :=
  applyAll c assignments

/-- An expression of the configuration script.  Every right-hand side
in `src/ipython_config.py` is a literal. -/
inductive Expr where
  | lit (v : Value)

/-- A statement of the configuration script: an attribute assignment. -/
inductive Stmt where
  | assign (key : String) (rhs : Expr)

/-- Expression evaluation, in an error monad (the channel a Python
exception would use).  A literal always evaluates successfully. -/
def evalExpr : Expr → Except String Value
  | .lit v => Except.ok v

/-- Execute one statement on the configuration object, in an error
monad. -/
def execStmt (c : Config) : Stmt → Except String Config
  | .assign k e => (evalExpr e).map (fun v => setKey c k v)

/-- The configuration file as a statement list, in source order. -/
def script : List Stmt :=
  assignments.map (fun kv => Stmt.assign kv.1 (Expr.lit kv.2))

/-- Execute the whole configuration file, in an error monad. -/
def runScript (c : Config) : Except String Config :=
  script.foldlM execStmt c

/-- A default/empty configuration object, before the host populates or
the file mutates it. -/
def fresh_config : Config := []

/-- A host configuration object that predefines every key the file
assigns (as the IPython host does), bound to placeholder defaults. -/
def host_defaults : Config :=
  assignments.map (fun kv => (kv.1, Value.str "hostdefault"))

/-- A configuration object is uniform at a key when every binding for
that key carries the given value. -/
def uniform (c : Config) (k : String) (v : Value) : Prop :=
  ∀ p ∈ c, p.1 = k → p.2 = v

theorem find?_key_cons_pos (p : String × Value) (t : List (String × Value)) {k : String}
    (h : (p.1 == k) = true) :
    (p :: t).find? (fun q => q.1 == k) = some p :=
  List.find?_cons_of_pos _ h

theorem find?_key_cons_neg (p : String × Value) (t : List (String × Value)) {k : String}
    (h : ¬ (p.1 == k) = true) :
    (p :: t).find? (fun q => q.1 == k) = t.find? (fun q => q.1 == k) :=
  List.find?_cons_of_neg _ h

theorem find?_map_overwrite (c : Config) (k : String) (v : Value) :
    (c.map (fun p => if p.1 == k then (k, v) else p)).find? (fun p => p.1 == k) =
      if c.any (fun p => p.1 == k) then some (k, v) else none := by
  induction c with
  | nil => rfl
  | cons p t ih =>
      simp only [List.map_cons, List.any_cons]
      by_cases hp : p.1 = k
      · have hb : (p.1 == k) = true := beq_iff_eq.mpr hp
        rw [if_pos hb,
          if_pos (show (p.1 == k || (t.any fun p => p.1 == k)) = true from by simp [hb])]
        exact find?_key_cons_pos _ _ (beq_self_eq_true k)
      · have hb : (p.1 == k) = false := beq_eq_false_iff_ne.mpr hp
        have hbn : ¬((p.1 == k) = true) := by simp [hb]
        rw [if_neg hbn, find?_key_cons_neg _ _ hbn, ih]
        simp only [hb, Bool.false_or]

theorem find?_map_overwrite_ne {k k' : String} (hne : k' ≠ k) (c : Config) (v : Value) :
    (c.map (fun p => if p.1 == k' then (k', v) else p)).find? (fun p => p.1 == k) =
      c.find? (fun p => p.1 == k) := by
  induction c with
  | nil => rfl
  | cons p t ih =>
      simp only [List.map_cons]
      by_cases hp : p.1 = k'
      · have hb : (p.1 == k') = true := beq_iff_eq.mpr hp
        have h1 : ¬((((k', v) : String × Value).1 == k) = true) := by
          simp [beq_eq_false_iff_ne.mpr hne]
        have h2 : ¬((p.1 == k) = true) := by
          simp [beq_eq_false_iff_ne.mpr (show p.1 ≠ k by rw [hp]; exact hne)]
        rw [if_pos hb, find?_key_cons_neg _ _ h1, find?_key_cons_neg _ _ h2, ih]
      · have hb : ¬((p.1 == k') = true) := by
          simp [beq_eq_false_iff_ne.mpr hp]
        rw [if_neg hb]
        by_cases hk : (p.1 == k) = true
        · rw [find?_key_cons_pos _ _ hk, find?_key_cons_pos _ _ hk]
        · rw [find?_key_cons_neg _ _ hk, find?_key_cons_neg _ _ hk, ih]

theorem getKey_setKey_self (c : Config) (k : String) (v : Value) :
    getKey (setKey c k v) k = some v := by
  unfold getKey setKey
  by_cases h : (c.any (fun p => p.1 == k)) = true
  · rw [if_pos h, find?_map_overwrite, if_pos h]
    rfl
  · rw [if_neg h, List.find?_append]
    have h2 : c.find? (fun p => p.1 == k) = none := by
      rw [List.find?_eq_none]
      intro x hx hb
      exact h (List.any_eq_true.mpr ⟨x, hx, hb⟩)
    rw [h2]
    simp

theorem getKey_setKey_ne (c : Config) {k k' : String} (hne : k' ≠ k) (v : Value) :
    getKey (setKey c k' v) k = getKey c k := by
  unfold getKey setKey
  by_cases h : (c.any (fun p => p.1 == k')) = true
  · rw [if_pos h, find?_map_overwrite_ne hne]
  · rw [if_neg h, List.find?_append]
    have h1 : ([(k', v)] : Config).find? (fun p => p.1 == k) = none := by
      simp [beq_eq_false_iff_ne.mpr hne]
    rw [h1]
    simp

theorem find?_keys_none {l : List (String × Value)} {k : String}
    (h : k ∉ l.map Prod.fst) : l.find? (fun q => q.1 == k) = none := by
  rw [List.find?_eq_none]
  intro x hx hb
  exact h (List.mem_map.mpr ⟨x, hx, beq_iff_eq.mp hb⟩)

theorem find?_keys_isSome {l : List (String × Value)} {k : String}
    (h : k ∈ l.map Prod.fst) : ∃ q, l.find? (fun q => q.1 == k) = some q := by
  cases hf : l.find? (fun q => q.1 == k) with
  | some q => exact ⟨q, rfl⟩
  | none =>
      obtain ⟨p, hp, hpk⟩ := List.mem_map.mp h
      exact absurd (beq_iff_eq.mpr hpk) (List.find?_eq_none.mp hf p hp)

theorem getKey_of_not_mem {l : List (String × Value)} {k : String}
    (h : k ∉ l.map Prod.fst) : getKey l k = none := by
  unfold getKey
  rw [find?_keys_none h]
  rfl

theorem applyAll_cons (c : Config) (p : String × Value) (t : List (String × Value)) :
    applyAll c (p :: t) = applyAll (setKey c p.1 p.2) t := rfl

theorem getKey_applyAll (l : List (String × Value)) (hn : (l.map Prod.fst).Nodup)
    (c : Config) (k : String) :
    getKey (applyAll c l) k = (getKey l k).or (getKey c k) := by
  induction l generalizing c with
  | nil => rfl
  | cons p t ih =>
      have hnt : (t.map Prod.fst).Nodup := (List.nodup_cons.mp hn).2
      have hnot : p.1 ∉ t.map Prod.fst := (List.nodup_cons.mp hn).1
      rw [applyAll_cons, ih hnt]
      by_cases hp : p.1 = k
      · have hb : (p.1 == k) = true := beq_iff_eq.mpr hp
        have ht : getKey t k = none := getKey_of_not_mem (by rwa [hp] at hnot)
        rw [ht, Option.none_or]
        rw [show getKey (p :: t) k = some p.2 from by
          unfold getKey; rw [find?_key_cons_pos _ _ hb]; rfl]
        rw [hp]
        exact getKey_setKey_self c k p.2
      · have hbn : ¬((p.1 == k) = true) := by
          simp [beq_eq_false_iff_ne.mpr hp]
        rw [show getKey (p :: t) k = getKey t k from by
          unfold getKey; rw [find?_key_cons_neg _ _ hbn]]
        rw [getKey_setKey_ne c hp p.2]

theorem any_keys (c : Config) (k : String) :
    (c.any (fun p => p.1 == k)) = true ↔ k ∈ c.map Prod.fst := by
  rw [List.any_eq_true]
  constructor
  · rintro ⟨p, hp, hb⟩
    exact List.mem_map.mpr ⟨p, hp, beq_iff_eq.mp hb⟩
  · intro h
    obtain ⟨p, hp, hpk⟩ := List.mem_map.mp h
    exact ⟨p, hp, beq_iff_eq.mpr hpk⟩

theorem keys_setKey (c : Config) (k : String) (v : Value) :
    (setKey c k v).map Prod.fst =
      if k ∈ c.map Prod.fst then c.map Prod.fst else c.map Prod.fst ++ [k] := by
  unfold setKey
  by_cases h : k ∈ c.map Prod.fst
  · rw [if_pos ((any_keys c k).mpr h), if_pos h, List.map_map]
    apply List.map_congr_left
    intro p hp
    by_cases hpk : p.1 = k
    · have hb : (p.1 == k) = true := beq_iff_eq.mpr hpk
      simp only [Function.comp_apply, if_pos hb]
      exact hpk.symm
    · have hbn : ¬((p.1 == k) = true) := by
        simp [beq_eq_false_iff_ne.mpr hpk]
      simp only [Function.comp_apply, if_neg hbn]
  · rw [if_neg (fun hc => h ((any_keys c k).mp hc)), if_neg h, List.map_append]
    rfl

theorem setKey_eq_self {c : Config} {k : String} {v : Value}
    (hmem : k ∈ c.map Prod.fst) (hu : uniform c k v) : setKey c k v = c := by
  unfold setKey
  rw [if_pos ((any_keys c k).mpr hmem)]
  conv_rhs => rw [← List.map_id c]
  apply List.map_congr_left
  intro p hp
  by_cases hpk : p.1 = k
  · have hb : (p.1 == k) = true := beq_iff_eq.mpr hpk
    rw [if_pos hb, id_eq]
    exact Prod.ext hpk.symm (hu p hp hpk).symm
  · have hbn : ¬((p.1 == k) = true) := by
      simp [beq_eq_false_iff_ne.mpr hpk]
    rw [if_neg hbn, id_eq]

theorem mem_keys_setKey {c : Config} {k : String} (k' : String) (v' : Value)
    (h : k ∈ c.map Prod.fst) : k ∈ (setKey c k' v').map Prod.fst := by
  rw [keys_setKey]
  by_cases h' : k' ∈ c.map Prod.fst
  · rwa [if_pos h']
  · rw [if_neg h']
    exact List.mem_append_left _ h

theorem mem_keys_setKey_self (c : Config) (k : String) (v : Value) :
    k ∈ (setKey c k v).map Prod.fst := by
  rw [keys_setKey]
  by_cases h : k ∈ c.map Prod.fst
  · rwa [if_pos h]
  · rw [if_neg h]
    exact List.mem_append_right _ (List.mem_singleton.mpr rfl)

theorem uniform_setKey_self (c : Config) (k : String) (v : Value) :
    uniform (setKey c k v) k v := by
  unfold setKey
  by_cases h : (c.any (fun p => p.1 == k)) = true
  · rw [if_pos h]
    intro q hq hqk
    obtain ⟨p, hp, hfp⟩ := List.mem_map.mp hq
    by_cases hpk : p.1 = k
    · have hb : (p.1 == k) = true := beq_iff_eq.mpr hpk
      rw [if_pos hb] at hfp
      rw [← hfp]
    · have hbn : ¬((p.1 == k) = true) := by
        simp [beq_eq_false_iff_ne.mpr hpk]
      rw [if_neg hbn] at hfp
      exact absurd (hfp ▸ hqk) hpk
  · rw [if_neg h]
    intro q hq hqk
    rcases List.mem_append.mp hq with hqc | hqs
    · exact absurd ((any_keys c k).mpr (List.mem_map.mpr ⟨q, hqc, hqk⟩)) h
    · rw [List.mem_singleton.mp hqs]

theorem uniform_setKey_ne {c : Config} {k : String} {v : Value} (k' : String) (v' : Value)
    (hne : k' ≠ k) (hu : uniform c k v) : uniform (setKey c k' v') k v := by
  unfold setKey
  by_cases h : (c.any (fun p => p.1 == k')) = true
  · rw [if_pos h]
    intro q hq hqk
    obtain ⟨p, hp, hfp⟩ := List.mem_map.mp hq
    by_cases hpk : p.1 = k'
    · have hb : (p.1 == k') = true := beq_iff_eq.mpr hpk
      rw [if_pos hb] at hfp
      rw [← hfp] at hqk
      exact absurd hqk hne
    · have hbn : ¬((p.1 == k') = true) := by
        simp [beq_eq_false_iff_ne.mpr hpk]
      rw [if_neg hbn] at hfp
      exact hu q (hfp ▸ hp) hqk
  · rw [if_neg h]
    intro q hq hqk
    rcases List.mem_append.mp hq with hqc | hqs
    · exact hu q hqc hqk
    · have hq' : q = (k', v') := List.mem_singleton.mp hqs
      rw [hq'] at hqk
      exact absurd hqk hne

theorem applyAll_preserve (l : List (String × Value)) {c : Config} {k : String} {v : Value}
    (hl : ∀ kv ∈ l, kv.1 ≠ k) (hmem : k ∈ c.map Prod.fst) (hu : uniform c k v) :
    k ∈ (applyAll c l).map Prod.fst ∧ uniform (applyAll c l) k v := by
  induction l generalizing c with
  | nil => exact ⟨hmem, hu⟩
  | cons p t ih =>
      rw [applyAll_cons]
      exact ih (fun kv hkv => hl kv (List.mem_cons_of_mem _ hkv))
        (mem_keys_setKey _ _ hmem)
        (uniform_setKey_ne _ _ (hl p (List.mem_cons_self _ _)) hu)

theorem applyAll_establish (l : List (String × Value)) (hn : (l.map Prod.fst).Nodup)
    (c : Config) :
    ∀ kv ∈ l, kv.1 ∈ (applyAll c l).map Prod.fst ∧ uniform (applyAll c l) kv.1 kv.2 := by
  induction l generalizing c with
  | nil => intro kv hkv; cases hkv
  | cons p t ih =>
      intro kv hkv
      rw [applyAll_cons]
      rcases List.mem_cons.mp hkv with hkvp | hkvt
      · have hnot : p.1 ∉ t.map Prod.fst := (List.nodup_cons.mp hn).1
        have hne : ∀ kv' ∈ t, kv'.1 ≠ p.1 := by
          intro kv' hkv' heq
          exact hnot (List.mem_map.mpr ⟨kv', hkv', heq⟩)
        rw [hkvp]
        exact applyAll_preserve t hne (mem_keys_setKey_self c p.1 p.2)
          (uniform_setKey_self c p.1 p.2)
      · exact ih (List.nodup_cons.mp hn).2 (setKey c p.1 p.2) kv hkvt

theorem applyAll_id (l : List (String × Value)) (c : Config) :
    (∀ kv ∈ l, kv.1 ∈ c.map Prod.fst ∧ uniform c kv.1 kv.2) → applyAll c l = c := by
  induction l with
  | nil => intro _; rfl
  | cons p t ih =>
      intro h
      rw [applyAll_cons,
        setKey_eq_self (h p (List.mem_cons_self _ _)).1 (h p (List.mem_cons_self _ _)).2]
      exact ih (fun kv hkv => h kv (List.mem_cons_of_mem _ hkv))

theorem keys_applyAll_of_mem (l : List (String × Value)) (c : Config) :
    (∀ kv ∈ l, kv.1 ∈ c.map Prod.fst) → (applyAll c l).map Prod.fst = c.map Prod.fst := by
  induction l generalizing c with
  | nil => intro _; rfl
  | cons p t ih =>
      intro h
      rw [applyAll_cons]
      have hk : (setKey c p.1 p.2).map Prod.fst = c.map Prod.fst := by
        rw [keys_setKey, if_pos (h p (List.mem_cons_self _ _))]
      rw [ih (setKey c p.1 p.2)
        (fun kv hkv => by rw [hk]; exact h kv (List.mem_cons_of_mem _ hkv)), hk]

theorem find?_perm {l l' : List (String × Value)} {k : String}
    (hn : (l.map Prod.fst).Nodup) (hp : l.Perm l') :
    l.find? (fun q => q.1 == k) = l'.find? (fun q => q.1 == k) := by
  cases hf : l.find? (fun q => q.1 == k) with
  | none =>
      cases hf' : l'.find? (fun q => q.1 == k) with
      | none => rfl
      | some q =>
          have hq : q ∈ l := hp.mem_iff.mpr (List.mem_of_find?_eq_some hf')
          exact absurd (List.find?_some hf') (List.find?_eq_none.mp hf q hq)
  | some q =>
      have hql : q ∈ l := List.mem_of_find?_eq_some hf
      have hqk : (q.1 == k) = true := by simpa using List.find?_some hf
      cases hf' : l'.find? (fun q => q.1 == k) with
      | none =>
          exact absurd hqk (List.find?_eq_none.mp hf' q (hp.mem_iff.mp hql))
      | some q' =>
          have hq'l : q' ∈ l := hp.mem_iff.mpr (List.mem_of_find?_eq_some hf')
          have hq'k : (q'.1 == k) = true := by simpa using List.find?_some hf'
          have heq : q = q' := List.inj_on_of_nodup_map hn hql hq'l
            (by rw [beq_iff_eq.mp hqk, beq_iff_eq.mp hq'k])
          rw [heq]

theorem getKey_load_config (c : Config) (k : String) :
    getKey (load_config c) k = (getKey assignments k).or (getKey c k) :=
  getKey_applyAll assignments (by decide) c k

/-- Claim C1: for every host-provided configuration object, after
`load_config` runs, each of the nine recognized options equals the
literal the file assigns: extensions = ["autoreload", "line_profiler"],
autoindent = true, colors = "Linux", confirm_exit = false,
deep_reload = true, editor = "vim", xmode = "Context", justify = true,
multi_line_specials = true. -/
theorem claim_C1 (c : Config) :
    getKey (load_config c) "InteractiveShellApp.extensions"
        = some (Value.strList ["autoreload", "line_profiler"]) ∧
    getKey (load_config c) "InteractiveShell.autoindent" = some (Value.bool true) ∧
    getKey (load_config c) "InteractiveShell.colors" = some (Value.str "Linux") ∧
    getKey (load_config c) "InteractiveShell.confirm_exit" = some (Value.bool false) ∧
    getKey (load_config c) "InteractiveShell.deep_reload" = some (Value.bool true) ∧
    getKey (load_config c) "InteractiveShell.editor" = some (Value.str "vim") ∧
    getKey (load_config c) "InteractiveShell.xmode" = some (Value.str "Context") ∧
    getKey (load_config c) "PromptManager.justify" = some (Value.bool true) ∧
    getKey (load_config c) "PrefilterManager.multi_line_specials" = some (Value.bool true) :=
  ⟨(getKey_load_config c _).trans rfl, (getKey_load_config c _).trans rfl,
   (getKey_load_config c _).trans rfl, (getKey_load_config c _).trans rfl,
   (getKey_load_config c _).trans rfl, (getKey_load_config c _).trans rfl,
   (getKey_load_config c _).trans rfl, (getKey_load_config c _).trans rfl,
   (getKey_load_config c _).trans rfl⟩

/-- Claim C2: after `load_config` runs, the extensions field equals
exactly the two-element sequence ["autoreload", "line_profiler"], in
that order, whatever the field's initial value was. -/
theorem claim_C2 (c : Config) :
    getKey (load_config c) "InteractiveShellApp.extensions"
      = some (Value.strList ["autoreload", "line_profiler"]) :=
  (getKey_load_config c _).trans rfl

/-- Claim C3: for every configuration object and every key outside the
nine assigned options, `load_config` leaves that key's value
unchanged. -/
theorem claim_C3 (c : Config) (k : String) (h : k ∉ assignments.map Prod.fst) :
    getKey (load_config c) k = getKey c k := by
  rw [getKey_load_config, getKey_of_not_mem h]
  rfl

/-- Witness for claim C3 at a concrete unrelated key: a pre-existing
custom field retains its prior value. -/
theorem claim_C3_witness :
    "MyApp.custom_field" ∉ assignments.map Prod.fst ∧
    getKey (load_config [("MyApp.custom_field", Value.str "keep")]) "MyApp.custom_field"
      = getKey [("MyApp.custom_field", Value.str "keep")] "MyApp.custom_field" :=
  ⟨by decide, claim_C3 [("MyApp.custom_field", Value.str "keep")] "MyApp.custom_field" (by decide)⟩

/-- Claim C4: running `load_config` twice against a fresh configuration
object yields the same final object as running it once. -/
theorem claim_C4 : load_config (load_config fresh_config) = load_config fresh_config := by
  decide

/-- Claim C5: given a default/empty configuration object, after
`load_config` runs, confirm_exit is false while autoindent,
deep_reload, justify, and multi_line_specials are all true. -/
theorem claim_C5 :
    getKey (load_config fresh_config) "InteractiveShell.confirm_exit"
        = some (Value.bool false) ∧
    getKey (load_config fresh_config) "InteractiveShell.autoindent" = some (Value.bool true) ∧
    getKey (load_config fresh_config) "InteractiveShell.deep_reload" = some (Value.bool true) ∧
    getKey (load_config fresh_config) "PromptManager.justify" = some (Value.bool true) ∧
    getKey (load_config fresh_config) "PrefilterManager.multi_line_specials"
        = some (Value.bool true) := by
  decide

/-- Claim C6: the nine assignments commute: executing them in any order
on the same initial configuration object produces a configuration
object with the same value at every key as the source order does. -/
theorem claim_C6 (l : List (String × Value)) (hp : l.Perm assignments)
    (c : Config) (k : String) :
    getKey (applyAll c l) k = getKey (load_config c) k := by
  unfold load_config
  have hn : (l.map Prod.fst).Nodup := (hp.map Prod.fst).nodup_iff.mpr (by decide)
  rw [getKey_applyAll l hn, getKey_applyAll assignments (by decide)]
  unfold getKey
  rw [find?_perm hn hp]

/-- Witness for claim C6: running the nine assignments in reverse order
on the empty configuration object gives the same value at the justify
key as source order. -/
theorem claim_C6_witness :
    assignments.reverse.Perm assignments ∧
    getKey (applyAll fresh_config assignments.reverse) "PromptManager.justify"
      = getKey (load_config fresh_config) "PromptManager.justify" :=
  ⟨List.reverse_perm assignments,
   claim_C6 assignments.reverse (List.reverse_perm assignments) fresh_config
     "PromptManager.justify"⟩

theorem foldlM_execStmt (l : List (String × Value)) (c : Config) :
    (l.map (fun kv => Stmt.assign kv.1 (Expr.lit kv.2))).foldlM execStmt c
      = Except.ok (applyAll c l) := by
  induction l generalizing c with
  | nil => rfl
  | cons p t ih =>
      rw [List.map_cons, List.foldlM_cons]
      show (Except.ok (setKey c p.1 p.2) >>= fun c' =>
        (t.map (fun kv => Stmt.assign kv.1 (Expr.lit kv.2))).foldlM execStmt c')
          = Except.ok (applyAll c (p :: t))
      rw [applyAll_cons]
      exact ih (setKey c p.1 p.2)

/-- Claim C7: the loader is total and has no failure path: executed as
a statement sequence in an error monad, it returns successfully on
every configuration object, with no validation and no error signalled. -/
theorem claim_C7 (c : Config) : runScript c = Except.ok (load_config c) :=
  foldlM_execStmt assignments c

/-- Claim C8: when the host predefines every key the file assigns, the
loader introduces no new key: the key list of the configuration object
is unchanged by `load_config`. -/
theorem claim_C8 (c : Config) (h : ∀ kv ∈ assignments, kv.1 ∈ c.map Prod.fst) :
    (load_config c).map Prod.fst = c.map Prod.fst :=
  keys_applyAll_of_mem assignments c h

/-- Witness for claim C8 on a host configuration object that
predefines all nine keys. -/
theorem claim_C8_witness :
    (∀ kv ∈ assignments, kv.1 ∈ host_defaults.map Prod.fst) ∧
    (load_config host_defaults).map Prod.fst = host_defaults.map Prod.fst :=
  ⟨by decide, claim_C8 host_defaults (by decide)⟩

/-- Claim C9: the final values of the nine assigned keys are
independent of the configuration object's initial state: for any two
initial configuration objects, after `load_config` runs, the two
results agree on every assigned key. -/
theorem claim_C9 (c₁ c₂ : Config) (k : String) (h : k ∈ assignments.map Prod.fst) :
    getKey (load_config c₁) k = getKey (load_config c₂) k := by
  rw [getKey_load_config, getKey_load_config]
  obtain ⟨q, hq⟩ := find?_keys_isSome h
  unfold getKey
  rw [hq]
  rfl

/-- Witness for claim C9: the editor key ends up the same starting from
the empty configuration object and from one where the host preset a
different editor. -/
theorem claim_C9_witness :
    "InteractiveShell.editor" ∈ assignments.map Prod.fst ∧
    getKey (load_config []) "InteractiveShell.editor"
      = getKey (load_config [("InteractiveShell.editor", Value.str "emacs")])
          "InteractiveShell.editor" :=
  ⟨by decide,
   claim_C9 [] [("InteractiveShell.editor", Value.str "emacs")]
     "InteractiveShell.editor" (by decide)⟩

/-- Claim C10: the loader is idempotent on every initial configuration
object: running `load_config` twice yields the same object as running
it once. -/
theorem claim_C10 (c : Config) : load_config (load_config c) = load_config c := by
  unfold load_config
  exact applyAll_id assignments (applyAll c assignments)
    (applyAll_establish assignments (by decide) c)

end IPythonConfig
